import Mathlib

/-!
Verification of the dependency-resolution core of the mip package manager
(`src/mip_client/commands.py` and the legacy `src/mip/commands.py`).

The Python functions are embedded shallowly:

* A package-index entry (`pkg` dict with `name` / `dependencies` keys) becomes
  the structure `Pkg`; the parsed index (`index.get('packages', [])`) becomes
  `Index`.  The claims under scrutiny only touch the `name` and `dependencies`
  fields, so the opaque `version` / `mhl_url` fields are omitted; an entry with
  a missing `name` key can never match a lookup and an entry with a missing
  `dependencies` key behaves as `[]`, which is how missing keys are modelled.
* Python sets (`visited`) are modelled as `List String` with membership
  semantics; `set.add` becomes cons (it is only executed when the element is
  absent).  Python's in-place list mutation of the caller's `path`
  (`path.append(package_name)`) is modelled by returning the final state of the
  caller's list as an extra component; the `path[:]` copies passed to recursive
  calls are modelled by passing the value and discarding the callee's returned
  path component.
* Unbounded Python recursion becomes fuel-indexed recursion; every recursive
  call consumes one unit of fuel and exhaustion is a distinct error/none
  result, so any `.ok` / `some` result is a faithful run of the Python code.
* `sys.exit(1)` after an error message becomes an `Except.error` value carrying
  the data of the message (`BuildErr.cycle` carries the printed cycle path).
* The installed-package directory (`mip_dir`) scanned by the uninstall path
  becomes a list of `(directory name, declared dependencies)` pairs in
  iteration order; `_read_package_dependencies` reads the entry's dependency
  list (missing/corrupt manifests are already `[]` in this view).
-/

/-- One entry of the parsed package index: the `name` and `dependencies` keys
of a `pkg` dict (the only keys the resolution core reads). -/
structure Pkg where
  name : String
  dependencies : List String
deriving DecidableEq, Repr

/-- The parsed package index / manifest: `index.get('packages', [])`. -/
structure Index where
  packages : List Pkg
deriving DecidableEq, Repr

/-- The lookup loop `for pkg in index.get('packages', []): if pkg.get('name') ==
package_name: package_info = pkg; break` — first entry with a matching name. -/
def findPkg (index : Index) (package_name : String) : Option Pkg :=
  index.packages.find? (fun pkg => pkg.name == package_name)

/-- Declared dependencies of a package as the index records them
(`package_info.get('dependencies', [])`), `[]` when the name is absent. -/
def depsOf (index : Index) (package_name : String) : List String :=
  match findPkg index package_name with
  | some package_info => package_info.dependencies
  | none => []

/-- Fatal outcomes of `_build_dependency_graph` (each `print` + `sys.exit(1)`),
plus exhaustion of the recursion fuel of the embedding. -/
inductive BuildErr where
  | cycle (cyclePath : List String)
  | notFound (package_name : String)
  | outOfFuel
deriving DecidableEq, Repr

/-- The message printed on a circular dependency:
`f"Error: Circular dependency detected: {' -> '.join(path + [package_name])}"`. -/
def circularMessage (cyclePath : List String) : String :=
  "Error: Circular dependency detected: " ++ String.intercalate " -> " cyclePath

instance {ε α : Type} [DecidableEq ε] [DecidableEq α] : DecidableEq (Except ε α) := fun a b =>
  match a, b with
  | .error x, .error y =>
    if h : x = y then .isTrue (by rw [h]) else .isFalse (fun hc => by cases hc; exact h rfl)
  | .error _, .ok _ => .isFalse (fun hc => by cases hc)
  | .ok _, .error _ => .isFalse (fun hc => by cases hc)
  | .ok x, .ok y =>
    if h : x = y then .isTrue (by rw [h]) else .isFalse (fun hc => by cases hc; exact h rfl)

namespace MipClient

mutual

/-- Shallow embedding of `_build_dependency_graph` from
`src/mip_client/commands.py` (lines 58–107).  Arguments mirror the Python
signature (with the `None` defaults resolved by the callers to `[] []`).  The
result triple is `(returned list, final visited set, final state of the
caller's path list)` — the Python function mutates the caller-supplied `path`
by `path.append(package_name)` on the expanding branch. -/
def _build_dependency_graph : Nat → String → Index → List String → List String →
    Except BuildErr (List String × List String × List String)
  | 0, _, _, _, _ => .error .outOfFuel
  | fuel+1, package_name, index, visited, path =>
    if package_name ∈ path then .error (.cycle (path ++ [package_name]))
    else if package_name ∈ visited then .ok ([], visited, path)
    else
      match findPkg index package_name with
      | none => .error (.notFound package_name)
      | some package_info =>
        match depLoop fuel package_info.dependencies index (package_name :: visited)
            (path ++ [package_name]) with
        | .error e => .error e
        | .ok (result, visited') =>
          .ok (result ++ [package_name], visited', path ++ [package_name])

/-- The loop `for dep in package_info.get('dependencies', []):
result.extend(_build_dependency_graph(dep, index, visited, path[:]))` —
each recursive call receives the (unchanged) value of the parent's path and its
own mutation of that copy is discarded. -/
def depLoop : Nat → List String → Index → List String → List String →
    Except BuildErr (List String × List String)
  | 0, _, _, _, _ => .error .outOfFuel
  | _+1, [], _, visited, _ => .ok ([], visited)
  | fuel+1, dep :: deps, index, visited, path =>
    match _build_dependency_graph fuel dep index visited path with
    | .error e => .error e
    | .ok (r, visited', _) =>
      match depLoop fuel deps index visited' path with
      | .error e => .error e
      | .ok (rs, visited'') => .ok (r ++ rs, visited'')

end

end MipClient

namespace Mip

mutual

/-- Shallow embedding of the legacy `_build_dependency_graph` from
`src/mip/commands.py` (lines 20–69); same conventions as the `MipClient`
embedding (the second argument is called `manifest` in the legacy source). -/
def _build_dependency_graph : Nat → String → Index → List String → List String →
    Except BuildErr (List String × List String × List String)
  | 0, _, _, _, _ => .error .outOfFuel
  | fuel+1, package_name, manifest, visited, path =>
    if package_name ∈ path then .error (.cycle (path ++ [package_name]))
    else if package_name ∈ visited then .ok ([], visited, path)
    else
      match findPkg manifest package_name with
      | none => .error (.notFound package_name)
      | some package_info =>
        match depLoop fuel package_info.dependencies manifest (package_name :: visited)
            (path ++ [package_name]) with
        | .error e => .error e
        | .ok (result, visited') =>
          .ok (result ++ [package_name], visited', path ++ [package_name])

/-- The dependency loop of the legacy `_build_dependency_graph`. -/
def depLoop : Nat → List String → Index → List String → List String →
    Except BuildErr (List String × List String)
  | 0, _, _, _, _ => .error .outOfFuel
  | _+1, [], _, visited, _ => .ok ([], visited)
  | fuel+1, dep :: deps, manifest, visited, path =>
    match _build_dependency_graph fuel dep manifest visited path with
    | .error e => .error e
    | .ok (r, visited', _) =>
      match depLoop fuel deps manifest visited' path with
      | .error e => .error e
      | .ok (rs, visited'') => .ok (r ++ rs, visited'')

end

end Mip

/-- `Before l a b`: some occurrence of `b` in `l` has an occurrence of `a`
strictly before it.  On duplicate-free lists this is the usual "a appears
before b" order. -/
def Before (l : List String) (a b : String) : Prop :=
  ∃ l₁ l₂, l = l₁ ++ b :: l₂ ∧ a ∈ l₁

theorem before_append_right {l l' : List String} {a b : String}
    (h : Before l a b) : Before (l ++ l') a b := by
  obtain ⟨l₁, l₂, rfl, ha⟩ := h
  exact ⟨l₁, l₂ ++ l', by simp, ha⟩

theorem before_append_left {l l' : List String} {a b : String}
    (h : Before l' a b) : Before (l ++ l') a b := by
  obtain ⟨l₁, l₂, rfl, ha⟩ := h
  exact ⟨l ++ l₁, l₂, by simp, by simp [ha]⟩

theorem before_of_mem_append {l l' : List String} {a b : String}
    (ha : a ∈ l) (hb : b ∈ l') : Before (l ++ l') a b := by
  obtain ⟨u, v, rfl⟩ := List.append_of_mem hb
  exact ⟨l ++ u, v, by simp, by simp [ha]⟩

theorem before_concat_of_mem {l : List String} {a b : String}
    (ha : a ∈ l) : Before (l ++ [b]) a b :=
  before_of_mem_append ha (by simp)

theorem Before.mem_left {l : List String} {a b : String} (h : Before l a b) : a ∈ l := by
  obtain ⟨l₁, l₂, rfl, ha⟩ := h
  simp [ha]

theorem Before.mem_right {l : List String} {a b : String} (h : Before l a b) : b ∈ l := by
  obtain ⟨l₁, l₂, rfl, _⟩ := h
  simp

theorem nodup_split_unique {α : Type} {b : α} :
    ∀ {l₁ u l₂ v : List α}, (l₁ ++ b :: l₂).Nodup → l₁ ++ b :: l₂ = u ++ b :: v →
      l₁ = u ∧ l₂ = v := by
  intro l₁
  induction l₁ with
  | nil =>
    intro u l₂ v hn he
    cases u with
    | nil => simpa using he
    | cons x u' =>
      simp only [List.nil_append, List.cons_append, List.cons.injEq] at he
      obtain ⟨rfl, he'⟩ := he
      rw [List.nil_append, List.nodup_cons, he'] at hn
      exact absurd (by simp) hn.1
  | cons x l₁' ih =>
    intro u l₂ v hn he
    cases u with
    | nil =>
      simp only [List.cons_append, List.nil_append, List.cons.injEq] at he
      obtain ⟨rfl, he'⟩ := he
      rw [List.cons_append, List.nodup_cons] at hn
      exact absurd (by simp) hn.1
    | cons y u' =>
      simp only [List.cons_append, List.cons.injEq] at he
      obtain ⟨rfl, he'⟩ := he
      rw [List.cons_append, List.nodup_cons] at hn
      obtain ⟨h1, h2⟩ := ih hn.2 he'
      exact ⟨by rw [h1], h2⟩

theorem before_irrefl {l : List String} {a : String} (hn : l.Nodup) : ¬ Before l a a := by
  rintro ⟨l₁, l₂, rfl, ha⟩
  rw [List.nodup_append] at hn
  exact hn.2.2 ha (by simp)

theorem before_trans {l : List String} {a b c : String} (hn : l.Nodup)
    (h1 : Before l a b) (h2 : Before l b c) : Before l a c := by
  obtain ⟨l₁, l₂, he1, ha⟩ := h1
  obtain ⟨m₁, m₂, he2, hb⟩ := h2
  obtain ⟨u, v, rfl⟩ := List.append_of_mem hb
  rw [he1] at hn
  have he3 : l₁ ++ b :: l₂ = u ++ b :: (v ++ c :: m₂) := by
    rw [← he1, he2]; simp
  obtain ⟨rfl, rfl⟩ := nodup_split_unique hn he3
  exact ⟨l₁ ++ b :: v, m₂, by rw [he1]; simp, by simp [ha]⟩

namespace MipClient

/-- Invariants of every successful `_build_dependency_graph` run: the final
visited set is the initial one plus the returned names; returned names were
unvisited, are duplicate-free and resolvable in the index; dependencies of
returned names avoid the active path and are emitted before their dependent
(or were already visited); the caller's path is returned with `package_name`
appended exactly when the package was newly expanded. -/
def GraphInv (index : Index) (package_name : String)
    (visited path res vis' path' : List String) : Prop :=
  (∀ x, x ∈ vis' ↔ x ∈ res ∨ x ∈ visited) ∧
  (∀ x ∈ res, x ∉ visited) ∧
  res.Nodup ∧
  (∀ p ∈ res, (findPkg index p).isSome = true) ∧
  (∀ p ∈ res, ∀ d ∈ depsOf index p, d ∉ path ∧ d ≠ package_name) ∧
  (∀ p ∈ res, ∀ d ∈ depsOf index p, d ∈ visited ∨ Before res d p) ∧
  package_name ∈ vis' ∧
  ((res = [] ∧ path' = path ∧ vis' = visited ∧ package_name ∈ visited) ∨
   (package_name ∉ visited ∧ path' = path ++ [package_name] ∧ ∃ r, res = r ++ [package_name]))

/-- Invariants of every successful `depLoop` run (the dependency loop of
`_build_dependency_graph`), mirroring `GraphInv` for a list of packages. -/
def DepsInv (index : Index) (deps visited path res vis' : List String) : Prop :=
  (∀ x, x ∈ vis' ↔ x ∈ res ∨ x ∈ visited) ∧
  (∀ x ∈ res, x ∉ visited) ∧
  res.Nodup ∧
  (∀ p ∈ res, (findPkg index p).isSome = true) ∧
  (∀ p ∈ res, ∀ d ∈ depsOf index p, d ∉ path) ∧
  (∀ p ∈ res, ∀ d ∈ depsOf index p, d ∈ visited ∨ Before res d p) ∧
  (∀ d ∈ deps, d ∈ vis' ∧ d ∉ path)

theorem bdg_ok_not_mem_path {fuel : Nat} {package_name : String} {index : Index}
    {visited path : List String} {t : List String × List String × List String}
    (h : _build_dependency_graph fuel package_name index visited path = .ok t) :
    package_name ∉ path := by
  cases fuel with
  | zero => simp [_build_dependency_graph] at h
  | succ n =>
    intro hmem
    simp [_build_dependency_graph, hmem] at h

theorem graph_master : ∀ fuel : Nat,
    (∀ package_name index visited path res vis' path',
      _build_dependency_graph fuel package_name index visited path = .ok (res, vis', path') →
      GraphInv index package_name visited path res vis' path') ∧
    (∀ deps index visited path res vis',
      depLoop fuel deps index visited path = .ok (res, vis') →
      DepsInv index deps visited path res vis') := by
  intro fuel
  induction fuel with
  | zero =>
    constructor
    · intro pn idx vis path res vis' path' h
      simp [_build_dependency_graph] at h
    · intro deps idx vis path res vis' h
      simp [depLoop] at h
  | succ n ih =>
    constructor
    · intro pn idx vis path res vis' path' h
      by_cases h1 : pn ∈ path
      · simp [_build_dependency_graph, h1] at h
      by_cases h2 : pn ∈ vis
      · simp [_build_dependency_graph, h1, h2] at h
        obtain ⟨rfl, rfl, rfl⟩ := h
        exact ⟨by simp, by simp, by simp, by simp, by simp, by simp, h2,
          Or.inl ⟨rfl, rfl, rfl, h2⟩⟩
      cases hf : findPkg idx pn with
      | none => simp [_build_dependency_graph, h1, h2, hf] at h
      | some pkg =>
        cases hd : depLoop n pkg.dependencies idx (pn :: vis) (path ++ [pn]) with
        | error e => simp [_build_dependency_graph, h1, h2, hf, hd] at h
        | ok t =>
          obtain ⟨result, vis₂⟩ := t
          simp [_build_dependency_graph, h1, h2, hf, hd] at h
          obtain ⟨rfl, rfl, rfl⟩ := h
          obtain ⟨j1, j2, j3, j4, j5, j6, j7⟩ := ih.2 _ _ _ _ _ _ hd
          have hdeps : depsOf idx pn = pkg.dependencies := by simp [depsOf, hf]
          refine ⟨?_, ?_, ?_, ?_, ?_, ?_, ?_, ?_⟩
          · intro x
            have hx := j1 x
            simp only [List.mem_append, List.mem_cons, List.mem_singleton,
              List.not_mem_nil, or_false] at *
            tauto
          · intro x hx
            rcases List.mem_append.mp hx with hxr | hxn
            · have := j2 x hxr
              simp only [List.mem_cons] at this
              tauto
            · simp only [List.mem_singleton] at hxn
              subst hxn
              exact h2
          · rw [List.nodup_append]
            refine ⟨j3, List.nodup_singleton _, ?_⟩
            intro a ha hb
            simp only [List.mem_singleton] at hb
            subst hb
            exact (j2 a ha) (by simp)
          · intro p hp
            rcases List.mem_append.mp hp with hpr | hpn
            · exact j4 p hpr
            · simp only [List.mem_singleton] at hpn
              subst hpn
              rw [hf]
              rfl
          · intro p hp d hd0
            rcases List.mem_append.mp hp with hpr | hpn
            · have hnp := j5 p hpr d hd0
              exact ⟨fun hm => hnp (by simp [hm]), fun he => hnp (by simp [he])⟩
            · simp only [List.mem_singleton] at hpn
              subst hpn
              rw [hdeps] at hd0
              have hnp := (j7 d hd0).2
              exact ⟨fun hm => hnp (by simp [hm]), fun he => hnp (by simp [he])⟩
          · intro p hp d hd0
            rcases List.mem_append.mp hp with hpr | hpn
            · rcases j6 p hpr d hd0 with h6 | h6
              · rcases List.mem_cons.mp h6 with rfl | h6v
                · exact absurd (by simp) (j5 p hpr d hd0)
                · exact Or.inl h6v
              · exact Or.inr (before_append_right h6)
            · simp only [List.mem_singleton] at hpn
              subst hpn
              rw [hdeps] at hd0
              obtain ⟨hdv, hdp⟩ := j7 d hd0
              rcases (j1 d).mp hdv with hdr | hdn
              · exact Or.inr (before_concat_of_mem hdr)
              · rcases List.mem_cons.mp hdn with rfl | hdn'
                · exact absurd (by simp) hdp
                · exact Or.inl hdn'
          · exact (j1 pn).mpr (Or.inr (by simp))
          · exact Or.inr ⟨h2, rfl, result, rfl⟩
    · intro deps idx vis path res vis' h
      cases deps with
      | nil =>
        simp [depLoop] at h
        obtain ⟨rfl, rfl⟩ := h
        exact ⟨by simp, by simp, by simp, by simp, by simp, by simp, by simp⟩
      | cons dep rest =>
        cases hb : _build_dependency_graph n dep idx vis path with
        | error e => simp [depLoop, hb] at h
        | ok t =>
          obtain ⟨r, v1, pth⟩ := t
          cases ht : depLoop n rest idx v1 path with
          | error e => simp [depLoop, hb, ht] at h
          | ok t2 =>
            obtain ⟨rs, v2⟩ := t2
            simp [depLoop, hb, ht] at h
            obtain ⟨rfl, rfl⟩ := h
            obtain ⟨i1, i2, i3, i4, i5, i6, i7, i8⟩ := ih.1 _ _ _ _ _ _ _ hb
            obtain ⟨k1, k2, k3, k4, k5, k6, k7⟩ := ih.2 _ _ _ _ _ _ ht
            refine ⟨?_, ?_, ?_, ?_, ?_, ?_, ?_⟩
            · intro x
              have hx1 := i1 x
              have hx2 := k1 x
              simp only [List.mem_append] at *
              tauto
            · intro x hx
              rcases List.mem_append.mp hx with hxr | hxs
              · exact i2 x hxr
              · intro hxv
                exact (k2 x hxs) ((i1 x).mpr (Or.inr hxv))
            · rw [List.nodup_append]
              refine ⟨i3, k3, ?_⟩
              intro a ha hb'
              exact (k2 a hb') ((i1 a).mpr (Or.inl ha))
            · intro p hp
              rcases List.mem_append.mp hp with hpr | hps
              · exact i4 p hpr
              · exact k4 p hps
            · intro p hp d hd0
              rcases List.mem_append.mp hp with hpr | hps
              · exact (i5 p hpr d hd0).1
              · exact k5 p hps d hd0
            · intro p hp d hd0
              rcases List.mem_append.mp hp with hpr | hps
              · rcases i6 p hpr d hd0 with h6 | h6
                · exact Or.inl h6
                · exact Or.inr (before_append_right h6)
              · rcases k6 p hps d hd0 with h6 | h6
                · rcases (i1 d).mp h6 with hdr | hdv
                  · exact Or.inr (before_of_mem_append hdr hps)
                  · exact Or.inl hdv
                · exact Or.inr (before_append_left h6)
            · intro d' hd'
              rcases List.mem_cons.mp hd' with rfl | hdr
              · exact ⟨(k1 d').mpr (Or.inr i7), bdg_ok_not_mem_path hb⟩
              · exact k7 d' hdr

end MipClient

/-- The "declared dependency" edge relation of an index: `dependsEdge index a b`
holds when `b` is among the declared dependencies of the entry the index
resolves for `a` (absent names declare nothing). -/
def dependsEdge (index : Index) (a b : String) : Prop :=
  b ∈ depsOf index a

namespace MipClient

/-- A successful top-level resolve (empty initial visited set and path) emits
the requested package, is duplicate-free and closed under declared
dependencies, and emits every dependency of an emitted package before it. -/
theorem bdg_ok_closed {fuel : Nat} {package_name : String} {index : Index}
    {res vis' path' : List String}
    (h : _build_dependency_graph fuel package_name index [] [] = .ok (res, vis', path')) :
    package_name ∈ res ∧ res.Nodup ∧
    (∀ p ∈ res, ∀ d ∈ depsOf index p, d ∈ res ∧ Before res d p) := by
  obtain ⟨i1, i2, i3, i4, i5, i6, i7, i8⟩ := (graph_master fuel).1 _ _ _ _ _ _ _ h
  have hmem : package_name ∈ res := by
    rcases i8 with ⟨_, _, _, hm⟩ | ⟨_, _, r, rfl⟩
    · simp at hm
    · simp
  refine ⟨hmem, i3, ?_⟩
  intro p hp d hd
  rcases i6 p hp d hd with h6 | h6
  · simp at h6
  · exact ⟨h6.mem_left, h6⟩

/-- Along any successful top-level resolve, walking declared-dependency edges
from an emitted package stays inside the output and strictly decreases the
position in the output list. -/
theorem bdg_ok_transGen_before {fuel : Nat} {package_name : String} {index : Index}
    {res vis' path' : List String}
    (h : _build_dependency_graph fuel package_name index [] [] = .ok (res, vis', path')) :
    ∀ a b, Relation.TransGen (dependsEdge index) a b → a ∈ res →
      b ∈ res ∧ Before res b a := by
  obtain ⟨_, hnd, hclosed⟩ := bdg_ok_closed h
  intro a b hab
  induction hab with
  | single hab => intro ha; exact hclosed a ha _ hab
  | tail hab hbc ih =>
    intro ha
    obtain ⟨hb, hba⟩ := ih ha
    obtain ⟨hc, hcb⟩ := hclosed _ hb _ hbc
    exact ⟨hc, before_trans hnd hcb hba⟩

/-- Everything reachable from the requested package is emitted by a successful
top-level resolve. -/
theorem bdg_ok_reachable_mem {fuel : Nat} {package_name : String} {index : Index}
    {res vis' path' : List String}
    (h : _build_dependency_graph fuel package_name index [] [] = .ok (res, vis', path')) :
    ∀ x, Relation.ReflTransGen (dependsEdge index) package_name x → x ∈ res := by
  obtain ⟨hmem, _, hclosed⟩ := bdg_ok_closed h
  intro x hx
  induction hx with
  | refl => exact hmem
  | tail hxy hyz ih => exact (hclosed _ ih _ hyz).1

/-- Invariant of the cycle error: starting from a path that is a chain of
declared-dependency edges, any reported cycle path is itself such a chain, its
last name re-occurs earlier in it, and it extends the initial path, continuing
with the package currently being resolved. -/
theorem cycle_chain_master : ∀ fuel : Nat,
    (∀ package_name index visited path l,
      List.Chain' (dependsEdge index) (path ++ [package_name]) →
      _build_dependency_graph fuel package_name index visited path = .error (.cycle l) →
      List.Chain' (dependsEdge index) l ∧
      (∃ m, l.getLast? = some m ∧ m ∈ l.dropLast) ∧
      (∃ t, l = path ++ t ∧ t.head? = some package_name)) ∧
    (∀ deps index visited path l,
      (∀ d ∈ deps, List.Chain' (dependsEdge index) (path ++ [d])) →
      depLoop fuel deps index visited path = .error (.cycle l) →
      List.Chain' (dependsEdge index) l ∧
      (∃ m, l.getLast? = some m ∧ m ∈ l.dropLast) ∧
      (∃ t, l = path ++ t)) := by
  intro fuel
  induction fuel with
  | zero =>
    constructor
    · intro pn idx vis path l hch h
      simp [_build_dependency_graph] at h
    · intro deps idx vis path l hch h
      simp [depLoop] at h
  | succ n ih =>
    constructor
    · intro pn idx vis path l hch h
      by_cases h1 : pn ∈ path
      · simp only [_build_dependency_graph, if_pos h1, Except.error.injEq,
          BuildErr.cycle.injEq] at h
        subst h
        refine ⟨hch, ⟨pn, ?_, ?_⟩, ⟨[pn], rfl, rfl⟩⟩
        · exact List.getLast?_concat _
        · rw [List.dropLast_concat]
          exact h1
      by_cases h2 : pn ∈ vis
      · simp [_build_dependency_graph, h1, h2] at h
      cases hf : findPkg idx pn with
      | none => simp [_build_dependency_graph, h1, h2, hf] at h
      | some pkg =>
        cases hd : depLoop n pkg.dependencies idx (pn :: vis) (path ++ [pn]) with
        | ok t => simp [_build_dependency_graph, h1, h2, hf, hd] at h
        | error e =>
          simp only [_build_dependency_graph, if_neg h1, if_neg h2, hf, hd,
            Except.error.injEq] at h
          subst h
          have hchd : ∀ d ∈ pkg.dependencies,
              List.Chain' (dependsEdge idx) ((path ++ [pn]) ++ [d]) := by
            intro d hdmem
            rw [List.chain'_append]
            refine ⟨hch, List.chain'_singleton _, ?_⟩
            intro x hx y hy
            simp only [List.getLast?_concat, Option.mem_def, Option.some.injEq] at hx
            simp only [List.head?_cons, Option.mem_def, Option.some.injEq] at hy
            subst hx
            subst hy
            show d ∈ depsOf idx pn
            simp [depsOf, hf, hdmem]
          obtain ⟨hc1, hc2, t, ht⟩ := ih.2 _ _ _ _ _ hchd hd
          refine ⟨hc1, hc2, ⟨[pn] ++ t, ?_, rfl⟩⟩
          rw [ht]
          simp
    · intro deps idx vis path l hch h
      cases deps with
      | nil => simp [depLoop] at h
      | cons dep rest =>
        cases hb : _build_dependency_graph n dep idx vis path with
        | error e =>
          simp only [depLoop, hb, Except.error.injEq] at h
          subst h
          obtain ⟨hc1, hc2, t, ht, _⟩ := ih.1 _ _ _ _ _ (hch dep (by simp)) hb
          exact ⟨hc1, hc2, t, ht⟩
        | ok tt =>
          obtain ⟨r, v1, pth⟩ := tt
          cases ht2 : depLoop n rest idx v1 path with
          | ok t2 => simp [depLoop, hb, ht2] at h
          | error e =>
            simp only [depLoop, hb, ht2, Except.error.injEq] at h
            subst h
            exact ih.2 _ _ _ _ _ (fun d hd => hch d (by simp [hd])) ht2

end MipClient

/-- Index `{A: deps=[], B: deps=[A], C: deps=[B]}` of the spec scenarios. -/
def idxChain : Index := ⟨[⟨"A", []⟩, ⟨"B", ["A"]⟩, ⟨"C", ["B"]⟩]⟩

/-- Index with a single dependency-free package `A`. -/
def idxSingle : Index := ⟨[⟨"A", []⟩]⟩

/-- Index `{A: deps=[B], B: deps=[A]}` of the spec cycle scenario. -/
def idxTwoCycle : Index := ⟨[⟨"A", ["B"]⟩, ⟨"B", ["A"]⟩]⟩

/-- Index `{A: deps=[B], B: deps=[C], C: deps=[B]}`: the cycle `B -> C -> B` is
entered through the non-cyclic prefix `A`. -/
def idxTailCycle : Index := ⟨[⟨"A", ["B"]⟩, ⟨"B", ["C"]⟩, ⟨"C", ["B"]⟩]⟩

/-- C1: whenever the Dependency Graph Builder's top-level call (fresh visited
set and path, as `install_package` invokes it) returns a sequence — which is
exactly the acyclic-along-reachable-paths situation — the sequence never places
a package before any of its declared dependencies: every declared dependency of
every returned package occurs strictly before it, the sequence is
duplicate-free, and the requested package's own name is appended last. -/
theorem c1_builder_never_before_dependencies
    (fuel : Nat) (package_name : String) (index : Index)
    (res vis' path' : List String)
    (h : MipClient._build_dependency_graph fuel package_name index [] [] =
      .ok (res, vis', path')) :
    (∀ p ∈ res, ∀ d ∈ depsOf index p, Before res d p) ∧
    res.Nodup ∧ res.getLast? = some package_name := by
  obtain ⟨hm, hnd, hclosed⟩ := MipClient.bdg_ok_closed h
  refine ⟨fun p hp d hd => (hclosed p hp d hd).2, hnd, ?_⟩
  obtain ⟨i1, i2, i3, i4, i5, i6, i7, i8⟩ :=
    (MipClient.graph_master fuel).1 _ _ _ _ _ _ _ h
  rcases i8 with ⟨_, _, _, hmm⟩ | ⟨_, _, r, rfl⟩
  · simp at hmm
  · exact List.getLast?_concat _

/-- Witness for C1: resolving `C` against `{A: [], B: [A], C: [B]}` returns
`[A, B, C]` and the guarantees hold there. -/
theorem c1_builder_never_before_dependencies_witness :
    (MipClient._build_dependency_graph 10 "C" idxChain [] [] =
      .ok (["A", "B", "C"], ["A", "B", "C"], ["C"])) ∧
    ((∀ p ∈ ["A", "B", "C"], ∀ d ∈ depsOf idxChain p, Before ["A", "B", "C"] d p) ∧
      (["A", "B", "C"] : List String).Nodup ∧
      (["A", "B", "C"] : List String).getLast? = some "C") :=
  ⟨rfl, c1_builder_never_before_dependencies 10 "C" idxChain _ _ _ rfl⟩

/-- C2 (amended): (i) whenever a dependency cycle is reachable from the
requested package, top-level resolution never returns a sequence; (ii) whenever
it fails with the CircularDependency error — whose printed message is
`circularMessage` of the reported path — the reported path starts at the
requested package, follows declared-dependency edges at every consecutive pair,
and its last name re-occurs earlier in the path, so the segment between the two
occurrences of that name is a true cycle in the graph.  (The path's first and
last names need not be equal: the path may include a non-cyclic prefix leading
into the cycle, see the counterexample.) -/
theorem c2_cycle_failure (package_name : String) (index : Index) :
    ((∃ x, Relation.ReflTransGen (dependsEdge index) package_name x ∧
        Relation.TransGen (dependsEdge index) x x) →
      ∀ fuel t,
        MipClient._build_dependency_graph fuel package_name index [] [] ≠ .ok t) ∧
    (∀ fuel l,
      MipClient._build_dependency_graph fuel package_name index [] [] =
        .error (.cycle l) →
      List.Chain' (dependsEdge index) l ∧
      l.head? = some package_name ∧
      (∃ m, l.getLast? = some m ∧ m ∈ l.dropLast)) := by
  constructor
  · rintro ⟨x, hreach, hloop⟩ fuel ⟨res, vis', path'⟩ h
    have hx : x ∈ res := MipClient.bdg_ok_reachable_mem h x hreach
    have hb := (MipClient.bdg_ok_transGen_before h x x hloop hx).2
    exact before_irrefl (MipClient.bdg_ok_closed h).2.1 hb
  · intro fuel l h
    have hch : List.Chain' (dependsEdge index) (([] : List String) ++ [package_name]) := by
      simp
    obtain ⟨hc1, hc2, t, ht, hh⟩ := (MipClient.cycle_chain_master fuel).1 _ _ _ _ _ hch h
    simp only [List.nil_append] at ht
    subst ht
    exact ⟨hc1, hh, hc2⟩

/-- Counterexample to C2 as stated: for `{A: [B], B: [C], C: [B]}` and request
`A`, the code reports the path `A -> B -> C -> B`, whose first and last names
differ — the reported path is not itself a cycle, it only ends in one. -/
theorem c2_cycle_failure_counterexample :
    MipClient._build_dependency_graph 10 "A" idxTailCycle [] [] =
      .error (.cycle ["A", "B", "C", "B"]) ∧
    (["A", "B", "C", "B"] : List String).head? ≠
      (["A", "B", "C", "B"] : List String).getLast? :=
  ⟨rfl, by decide⟩

/-- Witness for C2: the spec scenario `{A: [B], B: [A]}`, request `A`, fails
with reported path `A -> B -> A`, and the amended guarantees hold there. -/
theorem c2_cycle_failure_witness :
    (MipClient._build_dependency_graph 10 "A" idxTwoCycle [] [] =
      .error (.cycle ["A", "B", "A"])) ∧
    (List.Chain' (dependsEdge idxTwoCycle) ["A", "B", "A"] ∧
      (["A", "B", "A"] : List String).head? = some "A" ∧
      (∃ m, (["A", "B", "A"] : List String).getLast? = some m ∧
        m ∈ (["A", "B", "A"] : List String).dropLast)) :=
  ⟨rfl, (c2_cycle_failure "A" idxTwoCycle).2 10 _ rfl⟩

/-- C9 (amended): a successful resolve call is a pure function of the index
and, of its caller-supplied arguments, mutates the visited set — which gains
exactly the returned names — and also the caller-supplied current path, which
gains the resolved package's name at its end whenever the package is newly
expanded; the path is unchanged only on the already-visited early return. -/
theorem c9_resolve_mutates_visited_and_path
    (fuel : Nat) (package_name : String) (index : Index)
    (visited path res vis' path' : List String)
    (h : MipClient._build_dependency_graph fuel package_name index visited path =
      .ok (res, vis', path')) :
    (∀ x, x ∈ vis' ↔ x ∈ res ∨ x ∈ visited) ∧
    (path' = path ++ [package_name] ∨ (path' = path ∧ res = [] ∧ vis' = visited)) := by
  obtain ⟨i1, _, _, _, _, _, _, i8⟩ :=
    (MipClient.graph_master fuel).1 _ _ _ _ _ _ _ h
  refine ⟨i1, ?_⟩
  rcases i8 with ⟨hres, hp, hv, _⟩ | ⟨_, hp, _⟩
  · exact Or.inr ⟨hp, hres, hv⟩
  · exact Or.inl hp

/-- Counterexample to C9 as stated: resolving `A` (no dependencies) with an
initially empty caller-supplied path returns the caller's path mutated to
`["A"]`, so the caller-supplied `currentPath` argument is not unchanged. -/
theorem c9_resolve_mutates_visited_and_path_counterexample :
    MipClient._build_dependency_graph 10 "A" idxSingle [] [] =
      .ok (["A"], ["A"], ["A"]) ∧ (["A"] : List String) ≠ ([] : List String) :=
  ⟨rfl, by simp⟩

/-- Witness for C9 (amended), on the same one-package run. -/
theorem c9_resolve_mutates_visited_and_path_witness :
    (MipClient._build_dependency_graph 10 "A" idxSingle [] [] =
      .ok (["A"], ["A"], ["A"])) ∧
    ((∀ x, x ∈ (["A"] : List String) ↔ x ∈ (["A"] : List String) ∨ x ∈ ([] : List String)) ∧
      ((["A"] : List String) = ([] : List String) ++ ["A"] ∨
        ((["A"] : List String) = ([] : List String) ∧ (["A"] : List String) = [] ∧
          (["A"] : List String) = ([] : List String)))) :=
  ⟨rfl, c9_resolve_mutates_visited_and_path 10 "A" idxSingle [] [] _ _ _ rfl⟩

/-- C10: the legacy graph builder of `src/mip/commands.py` and the current one
of `src/mip_client/commands.py` are extensionally equal — on every input (fuel,
package name, index/manifest, visited set, path) they return the same sequence
and state mutations and fail in exactly the same cases with the same reported
cycle path; their dependency loops agree likewise. -/
theorem c10_legacy_and_current_builder_equal : ∀ fuel : Nat,
    (∀ package_name index visited path,
      Mip._build_dependency_graph fuel package_name index visited path =
        MipClient._build_dependency_graph fuel package_name index visited path) ∧
    (∀ deps index visited path,
      Mip.depLoop fuel deps index visited path =
        MipClient.depLoop fuel deps index visited path) := by
  intro fuel
  induction fuel with
  | zero => exact ⟨fun _ _ _ _ => rfl, fun _ _ _ _ => rfl⟩
  | succ n ih =>
    constructor
    · intro pn idx vis path
      simp only [Mip._build_dependency_graph, MipClient._build_dependency_graph, ih.2]
    · intro deps idx vis path
      cases deps with
      | nil => rfl
      | cons dep rest =>
        simp only [Mip.depLoop, MipClient.depLoop, ih.1, ih.2]

namespace MipClient

mutual

/-- The nested `visit` closure shared (up to its child-selection test) by
`_topological_sort_packages` (lines 133–143) and `_build_uninstall_order`
(lines 514–524): skip if visited, else mark visited, visit the children, then
append the package to `result`.  `children pkg` is the in-order list of
packages the respective loop recurses into. -/
def dfsVisit (children : String → List String) : Nat → String → List String →
    List String → Option (List String × List String)
  | 0, _, _, _ => none
  | fuel+1, pkg_name, visited, result =>
    if pkg_name ∈ visited then some (visited, result)
    else
      match dfsVisitList children fuel (children pkg_name) (pkg_name :: visited) result with
      | none => none
      | some (visited', result') => some (visited', result' ++ [pkg_name])

/-- Visiting a list of packages in order, threading visited/result state
(the child loop inside `visit`, and the top-level `for pkg_name in ...:
visit(pkg_name)` loop). -/
def dfsVisitList (children : String → List String) : Nat → List String → List String →
    List String → Option (List String × List String)
  | 0, _, _, _ => none
  | _+1, [], visited, result => some (visited, result)
  | fuel+1, c :: cs, visited, result =>
    match dfsVisit children fuel c visited result with
    | none => none
    | some (visited', result') => dfsVisitList children fuel cs visited' result'

end

/-- `package_info_map.get(pkg_name)`-backed dependency lookup used by
`_topological_sort_packages` when building its `dependencies` dict:
`pkg_info.get('dependencies', []) if pkg_info else []`. -/
def infoDeps (package_info_map : String → Option Pkg) (pkg_name : String) : List String :=
  match package_info_map pkg_name with
  | some pkg_info => pkg_info.dependencies
  | none => []

/-- The packages `visit` recurses into inside `_topological_sort_packages`:
`for dep in dependencies.get(pkg_name, []): if dep in package_names: visit(dep)`. -/
def topoChildren (package_names : List String) (package_info_map : String → Option Pkg) :
    String → List String :=
  fun pkg_name =>
    (infoDeps package_info_map pkg_name).filter (fun dep => decide (dep ∈ package_names))

/-- Shallow embedding of `_topological_sort_packages` (lines 110–148): a DFS
postorder over the declared-dependency edges restricted to `package_names`,
visiting the input list in order. -/
def _topological_sort_packages (fuel : Nat) (package_names : List String)
    (package_info_map : String → Option Pkg) : Option (List String) :=
  match dfsVisitList (topoChildren package_names package_info_map) fuel
      package_names [] [] with
  | none => none
  | some (_, result) => some result

/-- The dict comprehension `{pkg['name']: pkg for pkg in index.get('packages',
[])}` of `install_package` (line 320); for duplicate names the last entry
wins. -/
def package_info_map_of (index : Index) : String → Option Pkg := fun name =>
  index.packages.foldl (fun acc pkg => if pkg.name = name then some pkg else acc) none

/-- The per-request resolutions of the `install_package` loop (lines 330–332):
`install_order = _build_dependency_graph(pkg_name, index)` — note the fresh
`visited=None`, `path=None` defaults on every iteration. -/
def resolveOrders (fuel : Nat) (repo_packages : List String) (index : Index) :
    Except BuildErr (List (List String)) :=
  match repo_packages with
  | [] => .ok []
  | pkg_name :: rest =>
    match _build_dependency_graph fuel pkg_name index [] [] with
    | .error e => .error e
    | .ok (install_order, _, _) =>
      match resolveOrders fuel rest index with
      | .error e => .error e
      | .ok os => .ok (install_order :: os)

/-- One insertion into the insertion-ordered model of a Python set. -/
def insertNew (acc : List String) (x : String) : List String :=
  if x ∈ acc then acc else acc ++ [x]

/-- Insertion-ordered model of `all_required.update(install_order)`. -/
def unionList (s l : List String) : List String :=
  l.foldl insertNew s

/-- The `all_required` accumulation loop of `install_package` (lines 329–332),
with the Python set modelled in insertion order. -/
def allRequiredAux (fuel : Nat) (repo_packages : List String) (index : Index)
    (acc : List String) : Except BuildErr (List String) :=
  match repo_packages with
  | [] => .ok acc
  | pkg_name :: rest =>
    match _build_dependency_graph fuel pkg_name index [] [] with
    | .error e => .error e
    | .ok (install_order, _, _) =>
      allRequiredAux fuel rest index (unionList acc install_order)

/-- The combined required set (`all_required`) after the resolution loop. -/
def allRequired (fuel : Nat) (repo_packages : List String) (index : Index) :
    Except BuildErr (List String) :=
  allRequiredAux fuel repo_packages index []

/-- `all_packages_to_install` of `install_package` (line 336): the topological
re-sort of the combined required set. -/
def plannedInstallList (fuel : Nat) (repo_packages : List String) (index : Index) :
    Except BuildErr (List String) :=
  match allRequired fuel repo_packages index with
  | .error e => .error e
  | .ok all_required =>
    match _topological_sort_packages fuel all_required (package_info_map_of index) with
    | none => .error .outOfFuel
    | some all_packages_to_install => .ok all_packages_to_install

/-- The partition loop of `install_package` (lines 357–365): plan members with
an existing package directory go to `already_installed`, the rest to
`to_install`, both in plan order.  The execution loop (lines 401–405) then
runs exactly one download-and-install step per `to_install` member. -/
def installPartition (all_packages_to_install installedNames : List String) :
    List String × List String :=
  (all_packages_to_install.filter (fun p => decide (p ∉ installedNames)),
   all_packages_to_install.filter (fun p => decide (p ∈ installedNames)))

theorem insertNew_mem (acc : List String) (x y : String) :
    y ∈ insertNew acc x ↔ y ∈ acc ∨ y = x := by
  by_cases h : x ∈ acc
  · simp only [insertNew, if_pos h]
    constructor
    · exact Or.inl
    · rintro (hy | rfl)
      · exact hy
      · exact h
  · simp [insertNew, if_neg h]

theorem insertNew_nodup (acc : List String) (x : String) (h : acc.Nodup) :
    (insertNew acc x).Nodup := by
  by_cases hm : x ∈ acc
  · simpa [insertNew, if_pos hm] using h
  · rw [insertNew, if_neg hm, List.nodup_append]
    refine ⟨h, List.nodup_singleton _, ?_⟩
    intro a ha hb
    simp only [List.mem_singleton] at hb
    subst hb
    exact hm ha

theorem unionList_mem : ∀ (l s : List String) (y : String),
    y ∈ unionList s l ↔ y ∈ s ∨ y ∈ l := by
  intro l
  induction l with
  | nil => intro s y; simp [unionList]
  | cons a l ih =>
    intro s y
    show y ∈ unionList (insertNew s a) l ↔ _
    rw [ih, insertNew_mem]
    simp only [List.mem_cons]
    tauto

theorem unionList_nodup : ∀ (l s : List String), s.Nodup → (unionList s l).Nodup := by
  intro l
  induction l with
  | nil => intro s h; simpa [unionList] using h
  | cons a l ih =>
    intro s h
    exact ih _ (insertNew_nodup s a h)

theorem foldl_unionList_nodup : ∀ (os : List (List String)) (s : List String),
    s.Nodup → (os.foldl unionList s).Nodup := by
  intro os
  induction os with
  | nil => intro s h; simpa using h
  | cons o os ih => intro s h; exact ih _ (unionList_nodup o s h)

theorem foldl_unionList_mem : ∀ (os : List (List String)) (s : List String) (y : String),
    y ∈ os.foldl unionList s ↔ y ∈ s ∨ ∃ o ∈ os, y ∈ o := by
  intro os
  induction os with
  | nil => intro s y; simp
  | cons o os ih =>
    intro s y
    show y ∈ os.foldl unionList (unionList s o) ↔ _
    rw [ih, unionList_mem]
    simp only [List.mem_cons]
    constructor
    · rintro ((hy | hy) | ⟨o', ho', hy⟩)
      · exact Or.inl hy
      · exact Or.inr ⟨o, Or.inl rfl, hy⟩
      · exact Or.inr ⟨o', Or.inr ho', hy⟩
    · rintro (hy | ⟨o', (rfl | ho'), hy⟩)
      · exact Or.inl (Or.inl hy)
      · exact Or.inl (Or.inr hy)
      · exact Or.inr ⟨o', ho', hy⟩

theorem allRequiredAux_eq_foldl : ∀ (repo_packages : List String) (fuel : Nat)
    (index : Index) (acc : List String) (os : List (List String)),
    resolveOrders fuel repo_packages index = .ok os →
    allRequiredAux fuel repo_packages index acc = .ok (os.foldl unionList acc) := by
  intro repo_packages
  induction repo_packages with
  | nil =>
    intro fuel index acc os h
    simp only [resolveOrders, Except.ok.injEq] at h
    subst h
    rfl
  | cons pkg_name rest ih =>
    intro fuel index acc os h
    cases hb : _build_dependency_graph fuel pkg_name index [] [] with
    | error e => simp [resolveOrders, hb] at h
    | ok t =>
      obtain ⟨install_order, vis', path'⟩ := t
      cases hr : resolveOrders fuel rest index with
      | error e => simp [resolveOrders, hb, hr] at h
      | ok os' =>
        simp only [resolveOrders, hb, hr, Except.ok.injEq] at h
        subst h
        simp only [allRequiredAux, hb]
        rw [ih fuel index _ os' hr]
        rfl

end MipClient

/-- C3 (amended): `install_package` resolves each requested name with a fresh
`visitedSet` (the `visited=None`, `path=None` defaults are re-created on every
loop iteration), so overlapping dependency subtrees may be re-expanded for
later requests; de-duplication happens instead when the per-request orders are
unioned into the combined required set `all_required`, which therefore contains
every required name exactly once — it is duplicate-free and holds exactly the
names of the per-request expansions. -/
theorem c3_combined_required_set
    (fuel : Nat) (repo_packages : List String) (index : Index)
    (os : List (List String))
    (h : MipClient.resolveOrders fuel repo_packages index = .ok os) :
    MipClient.allRequired fuel repo_packages index =
      .ok (os.foldl MipClient.unionList []) ∧
    (os.foldl MipClient.unionList []).Nodup ∧
    (∀ x, x ∈ os.foldl MipClient.unionList [] ↔ ∃ o ∈ os, x ∈ o) := by
  refine ⟨MipClient.allRequiredAux_eq_foldl _ fuel index [] os h,
    MipClient.foldl_unionList_nodup os [] (by simp), ?_⟩
  intro x
  rw [MipClient.foldl_unionList_mem]
  simp

/-- Counterexample to C3 as stated: requesting `[A, B]` against
`{A: [], B: [A], C: [B]}` re-expands `A` during the second request's
resolution — `A` appears in both returned per-request orders — because each
`_build_dependency_graph(pkg_name, index)` call gets a fresh visited set, not a
shared one. -/
theorem c3_combined_required_set_counterexample :
    MipClient.resolveOrders 10 ["A", "B"] idxChain = .ok [["A"], ["A", "B"]] ∧
    "A" ∈ (["A"] : List String) ∧ "A" ∈ (["A", "B"] : List String) :=
  ⟨rfl, by decide, by decide⟩

/-- Witness for C3 (amended) on requests `[A, B]` against `{A: [], B: [A], C: [B]}`. -/
theorem c3_combined_required_set_witness :
    (MipClient.resolveOrders 10 ["A", "B"] idxChain = .ok [["A"], ["A", "B"]]) ∧
    (MipClient.allRequired 10 ["A", "B"] idxChain =
        .ok ([["A"], ["A", "B"]].foldl MipClient.unionList []) ∧
      ([["A"], ["A", "B"]].foldl MipClient.unionList []).Nodup ∧
      (∀ x, x ∈ [["A"], ["A", "B"]].foldl MipClient.unionList [] ↔
        ∃ o ∈ [["A"], ["A", "B"]], x ∈ o)) :=
  ⟨rfl, c3_combined_required_set 10 ["A", "B"] idxChain _ rfl⟩

/-- C7: install planning is idempotent with respect to already-installed
packages: if every member of the computed plan (`all_packages_to_install`) is
present in the installed set, the partition of lines 357–365 yields an empty
`to_install` — so the execution loop of lines 401–405 performs no install
step — and reports every plan member in `already_installed`. -/
theorem c7_install_idempotent
    (fuel : Nat) (repo_packages : List String) (index : Index)
    (installedNames all_packages_to_install : List String)
    (h : MipClient.plannedInstallList fuel repo_packages index =
      .ok all_packages_to_install)
    (hall : ∀ p ∈ all_packages_to_install, p ∈ installedNames) :
    MipClient.installPartition all_packages_to_install installedNames =
      ([], all_packages_to_install) := by
  unfold MipClient.installPartition
  simp only [Prod.mk.injEq]
  constructor
  · rw [List.filter_eq_nil_iff]
    intro a ha
    simpa using hall a ha
  · rw [List.filter_eq_self]
    intro a ha
    simpa using hall a ha

/-- Witness for C7: the spec scenario — both `A` and `B` installed, request
`{A, B}` — yields plan `[A, B]`, empty install list, and `already_installed =
[A, B]`. -/
theorem c7_install_idempotent_witness :
    (MipClient.plannedInstallList 10 ["A", "B"] idxChain = .ok ["A", "B"]) ∧
    (∀ p ∈ (["A", "B"] : List String), p ∈ (["A", "B"] : List String)) ∧
    MipClient.installPartition ["A", "B"] ["A", "B"] = ([], ["A", "B"]) :=
  ⟨rfl, by decide,
    c7_install_idempotent 10 ["A", "B"] idxChain ["A", "B"] ["A", "B"] rfl (by decide)⟩

/-- The parent-to-child edge relation of a DFS child-selection function. -/
def childEdge (children : String → List String) (a b : String) : Prop :=
  b ∈ children a

/-- An edge-decreasing rank function makes the child relation acyclic. -/
theorem rank_acyclic {children : String → List String} (f : String → Nat)
    (hf : ∀ a b, childEdge children a b → f b < f a) :
    ∀ x, ¬ Relation.TransGen (childEdge children) x x := by
  have hlt : ∀ a b, Relation.TransGen (childEdge children) a b → f b < f a := by
    intro a b h
    induction h with
    | single h => exact hf _ _ h
    | tail _ h ih => exact lt_trans (hf _ _ h) ih
  intro x hx
  exact lt_irrefl _ (hlt x x hx)

/-- A child relation with no edges at all is acyclic. -/
theorem acyclic_of_no_edges {children : String → List String}
    (h : ∀ a b, ¬ childEdge children a b) :
    ∀ x, ¬ Relation.TransGen (childEdge children) x x := by
  intro x hx
  cases hx with
  | single h' => exact h _ _ h'
  | tail _ h' => exact h _ _ h'

namespace MipClient

/-- Correctness of the shared DFS-postorder `visit` under an acyclic child
relation.  The ghost list `A` is the chain of ancestors currently on the
recursion stack: the visited set is exactly `result ∪ A`, emitted packages are
not on the stack, the output is duplicate-free and extends the input, every
child of an emitted package is emitted before it, and the visited package ends
up visited. -/
theorem dfs_master (children : String → List String)
    (hacy : ∀ x, ¬ Relation.TransGen (childEdge children) x x) : ∀ fuel : Nat,
    (∀ (pkg : String) (visited result A vis' res' : List String),
      dfsVisit children fuel pkg visited result = some (vis', res') →
      (∀ x, x ∈ visited ↔ x ∈ result ∨ x ∈ A) →
      (∀ x ∈ result, x ∉ A) →
      result.Nodup →
      (∀ q ∈ result, ∀ c ∈ children q, Before result c q) →
      (∀ a ∈ A, Relation.TransGen (childEdge children) a pkg) →
      (∃ d, res' = result ++ d) ∧
      (∀ x, x ∈ vis' ↔ x ∈ res' ∨ x ∈ A) ∧
      (∀ x ∈ res', x ∉ A) ∧
      res'.Nodup ∧
      (∀ q ∈ res', ∀ c ∈ children q, Before res' c q) ∧
      pkg ∈ vis') ∧
    (∀ (cs visited result A vis' res' : List String),
      dfsVisitList children fuel cs visited result = some (vis', res') →
      (∀ x, x ∈ visited ↔ x ∈ result ∨ x ∈ A) →
      (∀ x ∈ result, x ∉ A) →
      result.Nodup →
      (∀ q ∈ result, ∀ c ∈ children q, Before result c q) →
      (∀ c ∈ cs, ∀ a ∈ A, Relation.TransGen (childEdge children) a c) →
      (∃ d, res' = result ++ d) ∧
      (∀ x, x ∈ vis' ↔ x ∈ res' ∨ x ∈ A) ∧
      (∀ x ∈ res', x ∉ A) ∧
      res'.Nodup ∧
      (∀ q ∈ res', ∀ c ∈ children q, Before res' c q) ∧
      (∀ c ∈ cs, c ∈ vis')) := by
  intro fuel
  induction fuel with
  | zero =>
    constructor
    · intro pkg vis res A vis' res' h
      simp [dfsVisit] at h
    · intro cs vis res A vis' res' h
      simp [dfsVisitList] at h
  | succ n ih =>
    constructor
    · intro pkg vis res A vis' res' h hvis hd hn hg hsp
      by_cases h1 : pkg ∈ vis
      · simp only [dfsVisit, if_pos h1, Option.some.injEq, Prod.mk.injEq] at h
        obtain ⟨rfl, rfl⟩ := h
        exact ⟨⟨[], by simp⟩, hvis, hd, hn, hg, h1⟩
      cases hl : dfsVisitList children n (children pkg) (pkg :: vis) res with
      | none => simp [dfsVisit, h1, hl] at h
      | some t =>
        obtain ⟨vis₂, res₂⟩ := t
        simp only [dfsVisit, if_neg h1, hl, Option.some.injEq, Prod.mk.injEq] at h
        obtain ⟨rfl, rfl⟩ := h
        have hpkgres : pkg ∉ res := fun hc => h1 ((hvis pkg).mpr (Or.inl hc))
        have hpkgA : pkg ∉ A := fun hc => h1 ((hvis pkg).mpr (Or.inr hc))
        have hvis₁ : ∀ x, x ∈ pkg :: vis ↔ x ∈ res ∨ x ∈ pkg :: A := by
          intro x
          have := hvis x
          simp only [List.mem_cons]
          tauto
        have hd₁ : ∀ x ∈ res, x ∉ pkg :: A := by
          intro x hx
          simp only [List.mem_cons, not_or]
          exact ⟨fun he => hpkgres (he ▸ hx), hd x hx⟩
        have hsp₁ : ∀ c ∈ children pkg, ∀ a ∈ pkg :: A,
            Relation.TransGen (childEdge children) a c := by
          intro c hc a ha
          rcases List.mem_cons.mp ha with rfl | haA
          · exact Relation.TransGen.single hc
          · exact (hsp a haA).tail hc
        obtain ⟨⟨d₁, rfl⟩, k1, k2, k3, k4, k5⟩ :=
          ih.2 _ _ _ _ _ _ hl hvis₁ hd₁ hn hg
            (fun c hc a ha => hsp₁ c hc a ha)
        refine ⟨⟨d₁ ++ [pkg], by simp⟩, ?_, ?_, ?_, ?_, ?_⟩
        · intro x
          have := k1 x
          simp only [List.mem_append, List.mem_cons, List.mem_singleton] at *
          tauto
        · intro x hx
          rcases List.mem_append.mp hx with hx2 | hx1
          · have := k2 x hx2
            simp only [List.mem_cons, not_or] at this
            exact this.2
          · simp only [List.mem_singleton] at hx1
            subst hx1
            exact hpkgA
        · rw [List.nodup_append]
          refine ⟨k3, List.nodup_singleton _, ?_⟩
          intro a ha hb
          simp only [List.mem_singleton] at hb
          subst hb
          exact (k2 a ha) (by simp)
        · intro q hq c hc
          rcases List.mem_append.mp hq with hq2 | hq1
          · exact before_append_right (k4 q hq2 c hc)
          · simp only [List.mem_singleton] at hq1
            subst hq1
            have hcv := k5 c hc
            rcases (k1 c).mp hcv with hcr | hcA
            · exact before_concat_of_mem hcr
            · rcases List.mem_cons.mp hcA with rfl | hcA'
              · exact absurd (Relation.TransGen.single hc) (hacy _)
              · exact absurd ((hsp c hcA').tail hc) (hacy c)
        · exact (k1 pkg).mpr (Or.inr (by simp))
    · intro cs vis res A vis' res' h hvis hd hn hg hsp
      cases cs with
      | nil =>
        simp only [dfsVisitList, Option.some.injEq, Prod.mk.injEq] at h
        obtain ⟨rfl, rfl⟩ := h
        exact ⟨⟨[], by simp⟩, hvis, hd, hn, hg, by simp⟩
      | cons c cs' =>
        cases hv : dfsVisit children n c vis res with
        | none => simp [dfsVisitList, hv] at h
        | some t =>
          obtain ⟨vis₁, res₁⟩ := t
          simp only [dfsVisitList, hv] at h
          obtain ⟨⟨d₁, rfl⟩, m1, m2, m3, m4, m5⟩ :=
            ih.1 _ _ _ _ _ _ hv hvis hd hn hg (hsp c (by simp))
          obtain ⟨⟨d₂, rfl⟩, k1, k2, k3, k4, k5⟩ :=
            ih.2 _ _ _ _ _ _ h m1 m2 m3 m4
              (fun c' hc' a ha => hsp c' (by simp [hc']) a ha)
          refine ⟨⟨d₁ ++ d₂, by simp⟩, k1, k2, k3, k4, ?_⟩
          intro c' hc'
          rcases List.mem_cons.mp hc' with rfl | hc''
          · rcases (m1 c').mp m5 with hcr | hcA
            · exact (k1 c').mpr (Or.inl (List.mem_append.mpr (Or.inl hcr)))
            · exact (k1 c').mpr (Or.inr hcA)
          · exact k5 c' hc''

end MipClient

theorem topoChildren_mem (package_names : List String)
    (package_info_map : String → Option Pkg) (q c : String) :
    c ∈ MipClient.topoChildren package_names package_info_map q ↔
      c ∈ MipClient.infoDeps package_info_map q ∧ c ∈ package_names := by
  simp [MipClient.topoChildren, List.mem_filter]

/-- C6 (amended): (i) for every input whose declared-dependency relation
restricted to the input list is acyclic, `_topological_sort_packages` returns a
duplicate-free list containing every input package, in which every declared
dependency that is in the input list strictly precedes its dependent.
Stability for independent siblings does not hold in general (see the
counterexample); (ii) but the spec's chain scenario does: every permutation of
`{A, B, C}` (all six orderings, covering every possible Python set-iteration
order of the required set) under index `{A: [], B: [A], C: [B]}` sorts to plan
order `[A, B, C]`. -/
theorem c6_topological_sort :
    (∀ (fuel : Nat) (package_names : List String)
        (package_info_map : String → Option Pkg) (result : List String),
      (∀ x, ¬ Relation.TransGen
        (childEdge (MipClient.topoChildren package_names package_info_map)) x x) →
      MipClient._topological_sort_packages fuel package_names package_info_map =
        some result →
      (∀ p ∈ result, ∀ d ∈ MipClient.infoDeps package_info_map p,
        d ∈ package_names → Before result d p) ∧
      result.Nodup ∧ (∀ p ∈ package_names, p ∈ result)) ∧
    (∀ l ∈ ([["A", "B", "C"], ["A", "C", "B"], ["B", "A", "C"], ["B", "C", "A"],
        ["C", "A", "B"], ["C", "B", "A"]] : List (List String)),
      MipClient._topological_sort_packages 10 l
        (MipClient.package_info_map_of idxChain) = some ["A", "B", "C"]) := by
  constructor
  · intro fuel names m result hacy h
    unfold MipClient._topological_sort_packages at h
    cases hl : MipClient.dfsVisitList (MipClient.topoChildren names m) fuel names [] [] with
    | none => rw [hl] at h; exact absurd h (by simp)
    | some t =>
      obtain ⟨vis', res'⟩ := t
      rw [hl] at h
      have hres : res' = result := by simpa using h
      subst hres
      obtain ⟨_, k1, _, k3, k4, k5⟩ :=
        (MipClient.dfs_master _ hacy fuel).2 _ _ _ [] _ _ hl (by simp) (by simp)
          (by simp) (by simp) (by simp)
      refine ⟨?_, k3, ?_⟩
      · intro p hp d hd hdn
        exact k4 p hp d ((topoChildren_mem names m p d).mpr ⟨hd, hdn⟩)
      · intro p hp
        rcases (k1 p).mp (k5 p hp) with hr | hA
        · exact hr
        · simp at hA
  · decide

/-- Index `{X: deps=[Z], Y: deps=[], Z: deps=[]}` exhibiting the stability
violation of the DFS-based sort. -/
def idxStability : Index := ⟨[⟨"X", ["Z"]⟩, ⟨"Y", []⟩, ⟨"Z", []⟩]⟩

/-- Counterexample to C6 as stated: for input list `[X, Y, Z]` with `X`
depending on `Z` and `Y`, `Z` independent, the sort returns `[Z, X, Y]` — the
dependency-unconstrained pair `(Y, Z)` (both have empty dependency lists) has
its input order `Y` before `Z` reversed in the output, so the sort is not
stable for independent siblings. -/
theorem c6_topological_sort_counterexample :
    MipClient._topological_sort_packages 10 ["X", "Y", "Z"]
        (MipClient.package_info_map_of idxStability) = some ["Z", "X", "Y"] ∧
    MipClient.infoDeps (MipClient.package_info_map_of idxStability) "Y" = [] ∧
    MipClient.infoDeps (MipClient.package_info_map_of idxStability) "Z" = [] :=
  ⟨rfl, rfl, rfl⟩

/-- Rank function witnessing acyclicity of the chain index `{A: [], B: [A],
C: [B]}`. -/
def rankABC (s : String) : Nat :=
  if s = "C" then 2 else if s = "B" then 1 else 0

theorem idxChain_topo_acyclic :
    ∀ x, ¬ Relation.TransGen (childEdge (MipClient.topoChildren ["A", "B", "C"]
      (MipClient.package_info_map_of idxChain))) x x := by
  apply rank_acyclic rankABC
  intro a b h
  obtain ⟨hmem, _⟩ := List.mem_filter.mp h
  simp only [MipClient.infoDeps, MipClient.package_info_map_of, idxChain,
    List.foldl_cons, List.foldl_nil] at hmem
  by_cases hc : ("C" : String) = a
  · subst hc
    simp at hmem
    subst hmem
    decide
  by_cases hb2 : ("B" : String) = a
  · subst hb2
    simp at hmem
    subst hmem
    decide
  by_cases ha2 : ("A" : String) = a
  · subst ha2
    simp at hmem
  · simp [hc, hb2, ha2] at hmem

/-- Witness for C6 (amended): the chain index sorted from input `[A, B, C]`
(and, for the scenario part, from the permutation `[C, B, A]`). -/
theorem c6_topological_sort_witness :
    (∀ x, ¬ Relation.TransGen (childEdge (MipClient.topoChildren ["A", "B", "C"]
        (MipClient.package_info_map_of idxChain))) x x) ∧
    (MipClient._topological_sort_packages 10 ["A", "B", "C"]
        (MipClient.package_info_map_of idxChain) = some ["A", "B", "C"]) ∧
    ((∀ p ∈ ["A", "B", "C"],
        ∀ d ∈ MipClient.infoDeps (MipClient.package_info_map_of idxChain) p,
        d ∈ (["A", "B", "C"] : List String) → Before ["A", "B", "C"] d p) ∧
      (["A", "B", "C"] : List String).Nodup ∧
      (∀ p ∈ (["A", "B", "C"] : List String), p ∈ (["A", "B", "C"] : List String))) ∧
    MipClient._topological_sort_packages 10 ["C", "B", "A"]
        (MipClient.package_info_map_of idxChain) = some ["A", "B", "C"] :=
  ⟨idxChain_topo_acyclic, rfl,
    c6_topological_sort.1 10 ["A", "B", "C"] _ _ idxChain_topo_acyclic rfl,
    c6_topological_sort.2 ["C", "B", "A"] (by decide)⟩

namespace MipClient

/-- Shallow embedding of `_read_package_dependencies` (lines 419–441) against
the Installed-Set View: the view lists `(directory name, declared
dependencies)` in `mip_dir.iterdir()` order, a missing entry (or, in the
source, a missing/corrupt `mip.json`) yields `[]`. -/
def _read_package_dependencies (view : List (String × List String))
    (pkg_name : String) : List String :=
  match view.find? (fun e => e.1 == pkg_name) with
  | some e => e.2
  | none => []

/-- The packages `visit` recurses into inside `_build_uninstall_order`
(lines 519–522): `for other_pkg in packages_to_uninstall: if other_pkg !=
pkg_name and pkg_name in dependencies.get(other_pkg, []): visit(other_pkg)` —
the dependents of `pkg_name` within the uninstall set. -/
def uninstallChildren (packages_to_uninstall : List String)
    (view : List (String × List String)) : String → List String :=
  fun pkg_name => packages_to_uninstall.filter
    (fun other_pkg => decide (other_pkg ≠ pkg_name ∧
      pkg_name ∈ _read_package_dependencies view other_pkg))

/-- Shallow embedding of `_build_uninstall_order` (lines 490–529): DFS
postorder visiting each package's dependents (within the uninstall set) before
appending the package itself. -/
def _build_uninstall_order (fuel : Nat) (packages_to_uninstall : List String)
    (view : List (String × List String)) : Option (List String) :=
  match dfsVisitList (uninstallChildren packages_to_uninstall view) fuel
      packages_to_uninstall [] [] with
  | none => none
  | some (_, result) => some result

mutual

/-- Shallow embedding of `_find_reverse_dependencies` (lines 443–488): returns
`(reverse_deps, final visited set)` — the Python function mutates the shared
`visited` set, modelled by threading and returning it. -/
def _find_reverse_dependencies : Nat → String → List (String × List String) →
    List String → Option (List String × List String)
  | 0, _, _, _ => none
  | fuel+1, package_name, view, visited =>
    if package_name ∈ visited then some ([], visited)
    else scanInstalled fuel package_name view view (package_name :: visited)

/-- The scanning loop of `_find_reverse_dependencies` (lines 468–486) over the
remaining installed entries: skip the package itself, and for every entry
whose dependencies contain the target, append it and then its transitive
dependents (recursing with the shared visited set). -/
def scanInstalled : Nat → String → List (String × List String) →
    List (String × List String) → List String → Option (List String × List String)
  | 0, _, _, _, _ => none
  | _+1, _, _, [], visited => some ([], visited)
  | fuel+1, package_name, view, e :: rest, visited =>
    if e.1 = package_name then scanInstalled fuel package_name view rest visited
    else if package_name ∈ e.2 then
      match _find_reverse_dependencies fuel e.1 view visited with
      | none => none
      | some (transitive_deps, visited') =>
        match scanInstalled fuel package_name view rest visited' with
        | none => none
        | some (more, visited'') => some (e.1 :: (transitive_deps ++ more), visited'')
    else scanInstalled fuel package_name view rest visited

end

/-- The expansion loop of `uninstall_package` (lines 576–580): starting from
`set(requested_packages)`, union in each requested package's reverse
dependencies (each `_find_reverse_dependencies(pkg_name, mip_dir)` call gets a
fresh `visited`); the Python set is modelled in insertion order. -/
def uninstallSetAux (fuel : Nat) (pkgs : List String)
    (view : List (String × List String)) (acc : List String) :
    Option (List String) :=
  match pkgs with
  | [] => some acc
  | pkg_name :: rest =>
    match _find_reverse_dependencies fuel pkg_name view [] with
    | none => none
    | some (reverse_deps, _) => uninstallSetAux fuel rest view (unionList acc reverse_deps)

/-- `all_to_uninstall` after the expansion loop of `uninstall_package`. -/
def uninstallSet (fuel : Nat) (requested_packages : List String)
    (view : List (String × List String)) : Option (List String) :=
  uninstallSetAux fuel requested_packages view (unionList [] requested_packages)

/-- The uninstall planning pipeline (lines 576–583): the expanded set
`all_to_uninstall` and the ordered `to_uninstall` list. -/
def uninstallPlan (fuel : Nat) (requested_packages : List String)
    (view : List (String × List String)) :
    Option (List String × List String) :=
  match uninstallSet fuel requested_packages view with
  | none => none
  | some all_to_uninstall =>
    match _build_uninstall_order fuel all_to_uninstall view with
    | none => none
    | some to_uninstall => some (all_to_uninstall, to_uninstall)

end MipClient

/-- Installed set `{A: deps=[], B: deps=[A], C: deps=[B]}` of the spec's
uninstall scenario, in directory-iteration order. -/
def viewChain : List (String × List String) := [("A", []), ("B", ["A"]), ("C", ["B"])]

/-- Installed set with the manifest cycle `P -> Q -> P` (corrupted local
state). -/
def viewCyc : List (String × List String) := [("P", ["Q"]), ("Q", ["P"])]

/-- Installed set with a two-step cycle through `X`: `X` depends on `P`, `P`
depends on `X`. -/
def viewXCycle : List (String × List String) := [("X", ["P"]), ("P", ["X"])]

/-- Diamond-shaped installed set: `d1` and `d2` depend on `X`, `q` depends on
both `d1` and `d2`. -/
def viewDiamond : List (String × List String) :=
  [("d1", ["X"]), ("d2", ["X"]), ("q", ["d1", "d2"])]

theorem before_asymm {l : List String} {a b : String} (hn : l.Nodup)
    (h : Before l a b) : ¬ Before l b a :=
  fun h' => before_irrefl hn (before_trans hn h h')

theorem uninstallChildren_mem (packages_to_uninstall : List String)
    (view : List (String × List String)) (q c : String) :
    c ∈ MipClient.uninstallChildren packages_to_uninstall view q ↔
      c ∈ packages_to_uninstall ∧ c ≠ q ∧
        q ∈ MipClient._read_package_dependencies view c := by
  simp [MipClient.uninstallChildren, List.mem_filter, and_assoc]

/-- C5 (amended): (i) whenever the depends-on relation restricted to the
uninstall set is acyclic (non-corrupted local state), the Uninstall Planner's
output contains every member of the uninstall set exactly once and, for every
pair of distinct members `(p, q)` where `p` declares a dependency on `q`,
places `p` strictly before `q` (dependents removed first); (ii) the spec
scenario holds: installed `{A: [], B: [A], C: [B]}` with uninstall request `A`
expands to exactly `{A, B, C}` and orders it `[C, B, A]`. -/
theorem c5_uninstall_order :
    (∀ (fuel : Nat) (packages_to_uninstall : List String)
        (view : List (String × List String)) (result : List String),
      (∀ x, ¬ Relation.TransGen
        (childEdge (MipClient.uninstallChildren packages_to_uninstall view)) x x) →
      MipClient._build_uninstall_order fuel packages_to_uninstall view = some result →
      (∀ p q, p ∈ packages_to_uninstall → q ∈ packages_to_uninstall → p ≠ q →
        q ∈ MipClient._read_package_dependencies view p → Before result p q) ∧
      result.Nodup ∧ (∀ p ∈ packages_to_uninstall, p ∈ result)) ∧
    MipClient.uninstallPlan 100 ["A"] viewChain =
      some (["A", "B", "C"], ["C", "B", "A"]) := by
  constructor
  · intro fuel set view result hacy h
    unfold MipClient._build_uninstall_order at h
    cases hl : MipClient.dfsVisitList (MipClient.uninstallChildren set view)
        fuel set [] [] with
    | none => rw [hl] at h; exact absurd h (by simp)
    | some t =>
      obtain ⟨vis', res'⟩ := t
      rw [hl] at h
      have hres : res' = result := by simpa using h
      subst hres
      obtain ⟨_, k1, _, k3, k4, k5⟩ :=
        (MipClient.dfs_master _ hacy fuel).2 _ _ _ [] _ _ hl (by simp) (by simp)
          (by simp) (by simp) (by simp)
      have hmemall : ∀ p ∈ set, p ∈ res' := by
        intro p hp
        rcases (k1 p).mp (k5 p hp) with hr | hA
        · exact hr
        · simp at hA
      refine ⟨?_, k3, hmemall⟩
      intro p q hp hq hne hdep
      exact k4 q (hmemall q hq) p
        ((uninstallChildren_mem set view q p).mpr ⟨hp, hne, hdep⟩)
  · rfl

/-- Counterexample to C5 as stated: with mutually dependent installed packages
`{P: [Q], Q: [P]}` (cyclic local manifests) and uninstall set `{P, Q}`, the
order is `[Q, P]`: `P` depends on `Q` yet appears after it — no output order
could satisfy the claimed property on a cycle. -/
theorem c5_uninstall_order_counterexample :
    MipClient._build_uninstall_order 100 ["P", "Q"] viewCyc = some ["Q", "P"] ∧
    "Q" ∈ MipClient._read_package_dependencies viewCyc "P" ∧
    "P" ∈ (["P", "Q"] : List String) ∧ "Q" ∈ (["P", "Q"] : List String) ∧
    ¬ Before ["Q", "P"] "P" "Q" :=
  ⟨rfl, by decide, by decide, by decide,
    before_asymm (by decide) ⟨["Q"], [], rfl, by decide⟩⟩

/-- Rank function witnessing acyclicity of the dependent-of relation of
`viewChain` on the uninstall set `{A, B, C}`. -/
def rankDependents (s : String) : Nat :=
  if s = "A" then 2 else if s = "B" then 1 else 0

theorem viewChain_uninstall_acyclic :
    ∀ x, ¬ Relation.TransGen
      (childEdge (MipClient.uninstallChildren ["A", "B", "C"] viewChain)) x x := by
  apply rank_acyclic rankDependents
  intro a b h
  obtain ⟨hbset, hcond⟩ := List.mem_filter.mp h
  simp only [decide_eq_true_eq] at hcond
  obtain ⟨hne, hdep⟩ := hcond
  fin_cases hbset
  · simp [MipClient._read_package_dependencies, viewChain] at hdep
  · simp [MipClient._read_package_dependencies, viewChain] at hdep
    subst hdep
    decide
  · simp [MipClient._read_package_dependencies, viewChain] at hdep
    subst hdep
    decide

/-- Witness for C5 (amended): the spec scenario's uninstall set `{A, B, C}`
over `viewChain` is ordered `[C, B, A]` and the guarantees hold there. -/
theorem c5_uninstall_order_witness :
    (∀ x, ¬ Relation.TransGen (childEdge
        (MipClient.uninstallChildren ["A", "B", "C"] viewChain)) x x) ∧
    (MipClient._build_uninstall_order 100 ["A", "B", "C"] viewChain =
      some ["C", "B", "A"]) ∧
    ((∀ p q, p ∈ ["A", "B", "C"] → q ∈ ["A", "B", "C"] → p ≠ q →
        q ∈ MipClient._read_package_dependencies viewChain p →
        Before ["C", "B", "A"] p q) ∧
      (["C", "B", "A"] : List String).Nodup ∧
      (∀ p ∈ (["A", "B", "C"] : List String), p ∈ (["C", "B", "A"] : List String))) :=
  ⟨viewChain_uninstall_acyclic, rfl,
    c5_uninstall_order.1 100 ["A", "B", "C"] viewChain ["C", "B", "A"]
      viewChain_uninstall_acyclic rfl⟩

/-- The "depends on" edge relation of the Installed-Set View: `q` has an entry
whose declared dependencies contain `t`. -/
def manifestEdge (view : List (String × List String)) (q t : String) : Prop :=
  ∃ e ∈ view, e.1 = q ∧ t ∈ e.2

/-- An edge-decreasing rank function makes any relation acyclic. -/
theorem rel_rank_acyclic {α : Type} {r : α → α → Prop} (f : α → Nat)
    (hf : ∀ a b, r a b → f b < f a) : ∀ x, ¬ Relation.TransGen r x x := by
  have hlt : ∀ a b, Relation.TransGen r a b → f b < f a := by
    intro a b h
    induction h with
    | single h => exact hf _ _ h
    | tail _ h ih => exact lt_trans (hf _ _ h) ih
  intro x hx
  exact lt_irrefl _ (hlt x x hx)

/-- Invariants of every completed `_find_reverse_dependencies` /
`scanInstalled` run: the final visited set is the initial one plus the target
and the appended names; every appended name transitively depends on the
target (soundness); every dependent of a newly visited name is appended
(saturation); and a full scan appends every qualifying entry. -/
theorem reverse_master : ∀ fuel : Nat,
    (∀ (package_name : String) (view : List (String × List String))
        (visited res vis' : List String),
      MipClient._find_reverse_dependencies fuel package_name view visited =
        some (res, vis') →
      (∀ x, x ∈ vis' ↔ x ∈ visited ∨ x = package_name ∨ x ∈ res) ∧
      (∀ q ∈ res, Relation.TransGen (manifestEdge view) q package_name) ∧
      (∀ v, v ∈ vis' → v ∉ visited →
        ∀ q, manifestEdge view q v → q ≠ v → q ∈ res)) ∧
    (∀ (package_name : String) (view entries : List (String × List String))
        (visited res vis' : List String),
      (∀ e ∈ entries, e ∈ view) →
      MipClient.scanInstalled fuel package_name view entries visited =
        some (res, vis') →
      (∀ x, x ∈ vis' ↔ x ∈ visited ∨ x ∈ res) ∧
      (∀ q ∈ res, Relation.TransGen (manifestEdge view) q package_name) ∧
      (∀ v, v ∈ vis' → v ∉ visited →
        ∀ q, manifestEdge view q v → q ≠ v → q ∈ res) ∧
      (∀ e ∈ entries, e.1 ≠ package_name → package_name ∈ e.2 → e.1 ∈ res)) := by
  intro fuel
  induction fuel with
  | zero =>
    constructor
    · intro pn view vis res vis' h
      simp [MipClient._find_reverse_dependencies] at h
    · intro pn view entries vis res vis' hsub h
      simp [MipClient.scanInstalled] at h
  | succ n ih =>
    constructor
    · intro pn view vis res vis' h
      by_cases h1 : pn ∈ vis
      · simp only [MipClient._find_reverse_dependencies, if_pos h1,
          Option.some.injEq, Prod.mk.injEq] at h
        obtain ⟨rfl, rfl⟩ := h
        refine ⟨?_, by simp, ?_⟩
        · intro x
          simp only [List.not_mem_nil, or_false]
          constructor
          · exact fun hx => Or.inl hx
          · rintro (hx | rfl)
            · exact hx
            · exact h1
        · intro v hv hnv
          exact absurd hv hnv
      · cases hs : MipClient.scanInstalled n pn view view (pn :: vis) with
        | none => simp [MipClient._find_reverse_dependencies, h1, hs] at h
        | some t =>
          obtain ⟨res₀, vis₀⟩ := t
          simp only [MipClient._find_reverse_dependencies, if_neg h1, hs,
            Option.some.injEq, Prod.mk.injEq] at h
          obtain ⟨rfl, rfl⟩ := h
          obtain ⟨k1, k2, k3, k4⟩ := ih.2 pn view view (pn :: vis) res₀ vis₀
            (fun e he => he) hs
          refine ⟨?_, k2, ?_⟩
          · intro x
            have := k1 x
            simp only [List.mem_cons] at this
            tauto
          · intro v hv hnv q hedge hne
            by_cases hvt : v = pn
            · subst hvt
              obtain ⟨e, hev, he1, he2⟩ := hedge
              have hres := k4 e hev (by rw [he1]; exact hne) he2
              exact he1 ▸ hres
            · have hv1 : v ∉ pn :: vis := by simp [hvt, hnv]
              exact k3 v hv hv1 q hedge hne
    · intro pn view entries vis res vis' hsub h
      cases entries with
      | nil =>
        simp only [MipClient.scanInstalled, Option.some.injEq, Prod.mk.injEq] at h
        obtain ⟨rfl, rfl⟩ := h
        refine ⟨by simp, by simp, ?_, by simp⟩
        intro v hv hnv
        exact absurd hv hnv
      | cons e rest =>
        by_cases he1 : e.1 = pn
        · simp only [MipClient.scanInstalled, if_pos he1] at h
          obtain ⟨k1, k2, k3, k4⟩ := ih.2 pn view rest vis res vis'
            (fun e' he' => hsub e' (by simp [he'])) h
          refine ⟨k1, k2, k3, ?_⟩
          intro e' he' hne hdep
          rcases List.mem_cons.mp he' with rfl | hr
          · exact absurd he1 hne
          · exact k4 e' hr hne hdep
        · by_cases hdep : pn ∈ e.2
          · cases hf : MipClient._find_reverse_dependencies n e.1 view vis with
            | none => simp [MipClient.scanInstalled, he1, hdep, hf] at h
            | some t1 =>
              obtain ⟨transitive_deps, v1⟩ := t1
              cases hs2 : MipClient.scanInstalled n pn view rest v1 with
              | none => simp [MipClient.scanInstalled, he1, hdep, hf, hs2] at h
              | some t2 =>
                obtain ⟨more, v2⟩ := t2
                simp only [MipClient.scanInstalled, if_neg he1, if_pos hdep, hf, hs2,
                  Option.some.injEq, Prod.mk.injEq] at h
                obtain ⟨rfl, rfl⟩ := h
                have hev : e ∈ view := hsub e (by simp)
                have hedge : manifestEdge view e.1 pn := ⟨e, hev, rfl, hdep⟩
                obtain ⟨f1, f2, f3⟩ := ih.1 e.1 view vis transitive_deps v1 hf
                obtain ⟨g1, g2, g3, g4⟩ := ih.2 pn view rest v1 more v2
                  (fun e' he' => hsub e' (by simp [he'])) hs2
                refine ⟨?_, ?_, ?_, ?_⟩
                · intro x
                  have hx1 := f1 x
                  have hx2 := g1 x
                  simp only [List.mem_cons, List.mem_append] at *
                  tauto
                · intro q hq
                  rcases List.mem_cons.mp hq with rfl | hq'
                  · exact Relation.TransGen.single hedge
                  · rcases List.mem_append.mp hq' with hqt | hqm
                    · exact Relation.TransGen.trans (f2 q hqt)
                        (Relation.TransGen.single hedge)
                    · exact g2 q hqm
                · intro v hv hnv q hq hne
                  by_cases hv1 : v ∈ v1
                  · have hqt := f3 v hv1 hnv q hq hne
                    exact List.mem_cons.mpr (Or.inr (List.mem_append.mpr (Or.inl hqt)))
                  · have hqm := g3 v hv hv1 q hq hne
                    exact List.mem_cons.mpr (Or.inr (List.mem_append.mpr (Or.inr hqm)))
                · intro e' he' hne hdep'
                  rcases List.mem_cons.mp he' with rfl | hr
                  · exact List.mem_cons.mpr (Or.inl rfl)
                  · have := g4 e' hr hne hdep'
                    exact List.mem_cons.mpr (Or.inr (List.mem_append.mpr (Or.inr this)))
          · simp only [MipClient.scanInstalled, if_neg he1, if_neg hdep] at h
            obtain ⟨k1, k2, k3, k4⟩ := ih.2 pn view rest vis res vis'
              (fun e' he' => hsub e' (by simp [he'])) h
            refine ⟨k1, k2, k3, ?_⟩
            intro e' he' hne hdep'
            rcases List.mem_cons.mp he' with rfl | hr
            · exact absurd hdep' hdep
            · exact k4 e' hr hne hdep'

/-- C4 (amended): for every installed set whose manifest dependency graph is
acyclic (non-corrupted local state), `findDependents(X)` returns exactly the
installed packages from which X is reachable via one or more depends-on edges
in the local manifests, and never includes X itself.  (On cyclic local state X
itself can be returned — see the counterexample — which also matches the
"exactly reachable" reading, since there X is reachable from X.) -/
theorem c4_find_dependents_exact
    (fuel : Nat) (package_name : String) (view : List (String × List String))
    (res vis' : List String)
    (hacy : ∀ x, ¬ Relation.TransGen (manifestEdge view) x x)
    (h : MipClient._find_reverse_dependencies fuel package_name view [] =
      some (res, vis')) :
    (∀ p, p ∈ res ↔ Relation.TransGen (manifestEdge view) p package_name) ∧
    package_name ∉ res := by
  obtain ⟨k1, k2, k3⟩ := (reverse_master fuel).1 package_name view [] res vis' h
  refine ⟨?_, fun hc => hacy package_name (k2 package_name hc)⟩
  intro p
  constructor
  · exact k2 p
  · intro hp
    induction hp using Relation.TransGen.head_induction_on with
    | base hedge =>
      refine k3 package_name ((k1 package_name).mpr (Or.inr (Or.inl rfl)))
        (by simp) _ hedge ?_
      intro heq
      exact hacy package_name (Relation.TransGen.single (heq ▸ hedge))
    | ih h' htrans ihp =>
      rename_i a c
      have hcv : c ∈ vis' := (k1 c).mpr (Or.inr (Or.inr ihp))
      refine k3 c hcv (by simp) a h' ?_
      intro heq
      exact hacy c (Relation.TransGen.single (heq ▸ h'))

/-- Counterexample to C4 as stated: with installed set `{X: [P], P: [X]}`
(cyclic manifests), `findDependents(X)` returns `[P, X]` — it includes `X`
itself. -/
theorem c4_find_dependents_exact_counterexample :
    MipClient._find_reverse_dependencies 100 "X" viewXCycle [] =
      some (["P", "X"], ["P", "X"]) ∧ "X" ∈ (["P", "X"] : List String) :=
  ⟨rfl, by decide⟩

/-- Rank function witnessing acyclicity of the manifest graph of `viewChain`
(`B` depends on `A`, `C` depends on `B`). -/
theorem viewChain_manifest_acyclic :
    ∀ x, ¬ Relation.TransGen (manifestEdge viewChain) x x := by
  apply rel_rank_acyclic rankABC
  intro a b h
  obtain ⟨e, hev, he1, he2⟩ := h
  fin_cases hev
  · simp at he2
  · simp only [List.mem_singleton] at he2
    subst he2
    subst he1
    decide
  · simp only [List.mem_singleton] at he2
    subst he2
    subst he1
    decide

/-- Witness for C4 (amended): dependents of `A` in the installed chain
`{A: [], B: [A], C: [B]}` are exactly `{B, C}`, and `A` is not among them. -/
theorem c4_find_dependents_exact_witness :
    (∀ x, ¬ Relation.TransGen (manifestEdge viewChain) x x) ∧
    (MipClient._find_reverse_dependencies 100 "A" viewChain [] =
      some (["B", "C"], ["C", "B", "A"])) ∧
    ((∀ p, p ∈ (["B", "C"] : List String) ↔
        Relation.TransGen (manifestEdge viewChain) p "A") ∧
      "A" ∉ (["B", "C"] : List String)) :=
  ⟨viewChain_manifest_acyclic, rfl,
    c4_find_dependents_exact 100 "A" viewChain _ _ viewChain_manifest_acyclic rfl⟩

theorem uninstallSetAux_nodup : ∀ (pkgs : List String) (fuel : Nat)
    (view : List (String × List String)) (acc s : List String),
    acc.Nodup → MipClient.uninstallSetAux fuel pkgs view acc = some s → s.Nodup := by
  intro pkgs
  induction pkgs with
  | nil =>
    intro fuel view acc s hn h
    simp only [MipClient.uninstallSetAux, Option.some.injEq] at h
    exact h ▸ hn
  | cons p rest ih =>
    intro fuel view acc s hn h
    cases hf : MipClient._find_reverse_dependencies fuel p view [] with
    | none => simp [MipClient.uninstallSetAux, hf] at h
    | some t =>
      obtain ⟨reverse_deps, v⟩ := t
      simp only [MipClient.uninstallSetAux, hf] at h
      exact ih fuel view _ s (MipClient.unionList_nodup reverse_deps acc hn) h

/-- C8 (amended): `findDependents` itself can emit the same name several times
on diamond-shaped graphs (once per member of the dependent set through which
it is re-discovered — see the counterexample); set semantics over names are
restored by its caller: `all_to_uninstall`, the union of the requested set
with every `findDependents` result, never contains a name twice. -/
theorem c8_uninstall_set_nodup
    (fuel : Nat) (requested_packages : List String)
    (view : List (String × List String)) (s : List String)
    (h : MipClient.uninstallSet fuel requested_packages view = some s) :
    s.Nodup :=
  uninstallSetAux_nodup requested_packages fuel view _ s
    (MipClient.unionList_nodup requested_packages [] (by simp)) h

/-- Counterexample to C8 as stated: on the diamond `{d1: [X], d2: [X],
q: [d1, d2]}`, `findDependents(X)` returns `[d1, q, d2, q]` — the name `q`
appears twice. -/
theorem c8_uninstall_set_nodup_counterexample :
    MipClient._find_reverse_dependencies 100 "X" viewDiamond [] =
      some (["d1", "q", "d2", "q"], ["d2", "q", "d1", "X"]) ∧
    ¬ (["d1", "q", "d2", "q"] : List String).Nodup ∧
    (["d1", "q", "d2", "q"] : List String).count "q" = 2 :=
  ⟨rfl, by decide, by decide⟩

/-- Witness for C8 (amended): expanding the uninstall request `{X}` over the
diamond yields the duplicate-free set `[X, d1, q, d2]`. -/
theorem c8_uninstall_set_nodup_witness :
    (MipClient.uninstallSet 100 ["X"] viewDiamond = some ["X", "d1", "q", "d2"]) ∧
    (["X", "d1", "q", "d2"] : List String).Nodup :=
  ⟨rfl, c8_uninstall_set_nodup 100 ["X"] viewDiamond _ rfl⟩
